import Mathlib

/-
Verification of the core of the nuke file-deletion engine: the filter
(Selector), the scanner (Walker), the concurrent deleter and the trash store.
Pure Go functions are translated into Lean functions; filesystem state is made
explicit (trees, record lists, success flags); int64 values become Int.
-/

namespace Nuke

/-!
### Generic adjacent-swap (bubble) sort

Both scanner.go (sortByDepth) and trash.go (the DeletedAt sort inside
AutoCleanup) sort with a hand-written bubble sort: repeated left-to-right
sweeps swapping adjacent elements when a swap condition holds.  We model one
sweep as bubblePass and the whole sort as length-many sweeps.  The Go loops
run n-1 sweeps, bounding sweep i at index n-i-1; the omitted comparisons are
over the already-settled sorted suffix of maxima and can never swap, so the
computed permutation is identical; running length-many full sweeps only adds
further no-op sweeps.
-/

/-- The body of one sweep: a is the element currently carried rightwards,
the list is the remaining suffix.  Structurally recursive so that concrete
runs reduce inside the kernel. -/
def bubblePassAux {α : Type _} (lt : α → α → Bool) : α → List α → List α
  | a, [] => [a]
  | a, b :: rest =>
    if lt a b then b :: bubblePassAux lt a rest else a :: bubblePassAux lt b rest

/-- One left-to-right sweep of adjacent compare-and-swap steps.  The argument
lt is the swap condition from the source: lt a b = true means a standing
immediately before b must be swapped. -/
def bubblePass {α : Type _} (lt : α → α → Bool) : List α → List α
  | [] => []
  | a :: rest => bubblePassAux lt a rest

/-- The bubble sort from the source: repeated sweeps until settled. -/
def bubbleSort {α : Type _} (lt : α → α → Bool) (l : List α) : List α :=
  (bubblePass lt)^[l.length] l

theorem bubblePass_nil {α : Type _} (lt : α → α → Bool) : bubblePass lt ([] : List α) = [] :=
  rfl

theorem bubblePass_single {α : Type _} (lt : α → α → Bool) (a : α) : bubblePass lt [a] = [a] :=
  rfl

theorem bubblePass_cons₂ {α : Type _} (lt : α → α → Bool) (a b : α) (rest : List α) :
    bubblePass lt (a :: b :: rest) =
      if lt a b then b :: bubblePass lt (a :: rest) else a :: bubblePass lt (b :: rest) :=
  rfl

theorem bubblePass_length {α : Type _} (lt : α → α → Bool) :
    ∀ l : List α, (bubblePass lt l).length = l.length
  | [] => by simp [bubblePass_nil]
  | [a] => by simp [bubblePass_single]
  | a :: b :: rest => by
    cases hab : lt a b <;>
      simp [bubblePass_cons₂, hab, bubblePass_length lt (a :: rest),
        bubblePass_length lt (b :: rest)]

theorem bubblePass_perm {α : Type _} (lt : α → α → Bool) :
    ∀ l : List α, List.Perm (bubblePass lt l) l
  | [] => by simp [bubblePass_nil]
  | [a] => by simp [bubblePass_single]
  | a :: b :: rest => by
    cases hab : lt a b
    · rw [show bubblePass lt (a :: b :: rest) = a :: bubblePass lt (b :: rest) by
        simp [bubblePass_cons₂, hab]]
      exact (bubblePass_perm lt (b :: rest)).cons a
    · rw [show bubblePass lt (a :: b :: rest) = b :: bubblePass lt (a :: rest) by
        simp [bubblePass_cons₂, hab]]
      exact ((bubblePass_perm lt (a :: rest)).cons b).trans (List.Perm.swap a b rest)

theorem bubblePass_mem {α : Type _} (lt : α → α → Bool) {l : List α} {x : α} :
    x ∈ bubblePass lt l ↔ x ∈ l :=
  (bubblePass_perm lt l).mem_iff

/-- After one sweep the last element is maximal: the swap condition pushes a
maximum to the end of the list. -/
theorem bubblePass_max {α : Type _} (lt : α → α → Bool)
    (htot : ∀ a b, lt a b = true → lt b a = false)
    (htr : ∀ a b c, lt a b = false → lt b c = false → lt a c = false) :
    ∀ l : List α, l ≠ [] → ∃ ys m, bubblePass lt l = ys ++ [m] ∧ ∀ x ∈ l, lt x m = false
  | [], h => absurd rfl h
  | [a], _ => by
    refine ⟨[], a, by simp [bubblePass_single], ?_⟩
    intro x hx
    rw [List.mem_singleton] at hx
    rw [hx]
    cases haa : lt a a
    · rfl
    · rw [← haa]
      exact htot a a haa
  | a :: b :: rest, _ => by
    cases hab : lt a b
    · obtain ⟨ys, m, heq, hmax⟩ :=
        bubblePass_max lt htot htr (b :: rest) (List.cons_ne_nil b rest)
      refine ⟨a :: ys, m, by simp [bubblePass_cons₂, hab, heq], ?_⟩
      intro x hx
      rcases List.mem_cons.mp hx with hx | hx
      · rw [hx]
        exact htr a b m hab (hmax b (List.mem_cons_self b rest))
      · exact hmax x hx
    · obtain ⟨ys, m, heq, hmax⟩ :=
        bubblePass_max lt htot htr (a :: rest) (List.cons_ne_nil a rest)
      refine ⟨b :: ys, m, by simp [bubblePass_cons₂, hab, heq], ?_⟩
      intro x hx
      rcases List.mem_cons.mp hx with hx | hx
      · rw [hx]
        exact hmax a (List.mem_cons_self a rest)
      · rcases List.mem_cons.mp hx with hx | hx
        · rw [hx]
          exact htr b a m (htot a b hab) (hmax a (List.mem_cons_self a rest))
        · exact hmax x (List.mem_cons_of_mem a hx)

/-- A sweep over a list ending in a maximal element leaves that element in
place and sweeps the front. -/
theorem bubblePass_append_max {α : Type _} (lt : α → α → Bool) {m : α} :
    ∀ xs : List α, (∀ x ∈ xs, lt x m = false) →
      bubblePass lt (xs ++ [m]) = bubblePass lt xs ++ [m]
  | [], _ => by simp [bubblePass_nil, bubblePass_single]
  | [a], h => by
    have ha : lt a m = false := h a (List.mem_singleton_self a)
    simp [bubblePass_single, bubblePass_cons₂, ha]
  | a :: b :: rest, h => by
    have hrec : ∀ x ∈ b :: rest, lt x m = false := by
      intro x hx
      exact h x (List.mem_cons_of_mem a hx)
    have hreca : ∀ x ∈ a :: rest, lt x m = false := by
      intro x hx
      rcases List.mem_cons.mp hx with hx | hx
      · exact hx ▸ h a (List.mem_cons_self a _)
      · exact h x (List.mem_cons_of_mem a (List.mem_cons_of_mem b hx))
    cases hab : lt a b
    · have h2 := bubblePass_append_max lt (b :: rest) hrec
      simp only [List.cons_append] at h2 ⊢
      simp only [bubblePass_cons₂, hab, Bool.false_eq_true, if_false]
      simp [h2]
    · have h2 := bubblePass_append_max lt (a :: rest) hreca
      simp only [List.cons_append] at h2 ⊢
      simp only [bubblePass_cons₂, hab, if_true]
      simp [h2]

theorem iterate_bubblePass_perm {α : Type _} (lt : α → α → Bool) :
    ∀ (n : Nat) (l : List α), List.Perm ((bubblePass lt)^[n] l) l
  | 0, _ => List.Perm.refl _
  | n + 1, l => by
    rw [Function.iterate_succ_apply]
    exact (iterate_bubblePass_perm lt n (bubblePass lt l)).trans (bubblePass_perm lt l)

theorem iterate_bubblePass_append_max {α : Type _} (lt : α → α → Bool) {m : α} :
    ∀ (n : Nat) (xs : List α), (∀ x ∈ xs, lt x m = false) →
      (bubblePass lt)^[n] (xs ++ [m]) = (bubblePass lt)^[n] xs ++ [m]
  | 0, _, _ => rfl
  | n + 1, xs, h => by
    rw [Function.iterate_succ_apply, Function.iterate_succ_apply,
      bubblePass_append_max lt xs h]
    exact iterate_bubblePass_append_max lt n (bubblePass lt xs)
      (fun x hx => h x ((bubblePass_mem lt).mp hx))

theorem iterate_bubblePass_sorted {α : Type _} (lt : α → α → Bool)
    (htot : ∀ a b, lt a b = true → lt b a = false)
    (htr : ∀ a b c, lt a b = false → lt b c = false → lt a c = false) :
    ∀ (n : Nat) (l : List α), l.length ≤ n →
      List.Sorted (fun a b => lt a b = false) ((bubblePass lt)^[n] l)
  | 0, l, hl => by
    have : l = [] := List.eq_nil_of_length_eq_zero (Nat.le_zero.mp hl)
    subst this
    exact List.sorted_nil
  | n + 1, l, hl => by
    rcases eq_or_ne l [] with rfl | hne
    · rw [Function.iterate_succ_apply]
      rw [bubblePass_nil]
      exact iterate_bubblePass_sorted lt htot htr n [] (Nat.zero_le n)
    · obtain ⟨ys, m, heq, hmax⟩ := bubblePass_max lt htot htr l hne
      rw [Function.iterate_succ_apply, heq,
        iterate_bubblePass_append_max lt n ys
          (fun x hx => hmax x ((bubblePass_perm lt l).mem_iff.mp (heq ▸ List.mem_append_left _ hx)))]
      have hyslen : ys.length ≤ n := by
        have h1 : (bubblePass lt l).length = l.length := bubblePass_length lt l
        rw [heq, List.length_append, List.length_singleton] at h1
        omega
      have hsorted := iterate_bubblePass_sorted lt htot htr n ys hyslen
      rw [List.Sorted, List.pairwise_append]
      refine ⟨hsorted, List.pairwise_singleton _ _, ?_⟩
      intro x hx y hy
      rw [List.mem_singleton] at hy
      rw [hy]
      have hxys : x ∈ ys := ((iterate_bubblePass_perm lt n ys).mem_iff).mp hx
      exact hmax x ((bubblePass_perm lt l).mem_iff.mp (heq ▸ List.mem_append_left _ hxys))

/-- The bubble sorts in the source produce output sorted with respect to the
negation of the swap condition. -/
theorem bubbleSort_sorted {α : Type _} (lt : α → α → Bool)
    (htot : ∀ a b, lt a b = true → lt b a = false)
    (htr : ∀ a b c, lt a b = false → lt b c = false → lt a c = false)
    (l : List α) : List.Sorted (fun a b => lt a b = false) (bubbleSort lt l) :=
  iterate_bubblePass_sorted lt htot htr l.length l (Nat.le_refl _)

theorem bubbleSort_perm {α : Type _} (lt : α → α → Bool) (l : List α) :
    List.Perm (bubbleSort lt l) l :=
  iterate_bubblePass_perm lt l.length l

end Nuke

namespace Nuke

/-!
### Selector: the filter engine (filter.go)

Paths and patterns are strings over runes; int64 sizes and Unix timestamps
become Int.  The compiled regular expression of filter.Options is abstracted
as its matching function.
-/

/-- Models getEsc from the Go standard library glob matcher
(path/filepath/match.go): reads one possibly escaped character of a character
class, failing on an empty pattern or a bare dash or closing bracket. -/
def getEsc : List Char → Option (Char × List Char)
  | [] => none
  | c :: rest =>
    if c = '-' ∨ c = ']' then none
    else if c = '\\' then
      match rest with
      | [] => none
      | d :: rest₂ => some (d, rest₂)
    else some (c, rest)

theorem getEsc_length :
    ∀ {p : List Char} {c : Char} {r : List Char}, getEsc p = some (c, r) → r.length < p.length := by
  intro p c r h
  match p with
  | [] => simp [getEsc] at h
  | x :: rest =>
    simp only [getEsc] at h
    split at h
    · exact absurd h (by simp)
    · split at h
      · match rest with
        | [] => simp at h
        | d :: rest₂ =>
          simp only [Option.some.injEq, Prod.mk.injEq] at h
          simp [← h.2]
          omega
      · simp only [Option.some.injEq, Prod.mk.injEq] at h
        simp [← h.2]

/-- Models the range loop of the character-class case of the Go glob matcher:
seen accumulates whether the character fell in a range so far, n counts parsed
ranges; a closing bracket is only accepted after at least one range.  Returns
none for a malformed class, which the filter call sites treat as no match. -/
def classRanges (ch : Char) : List Char → Bool → Nat → Option (Bool × List Char)
  | [], _, _ => none
  | ']' :: rest, seen, n => if n > 0 then some (seen, rest) else none
  | p, seen, n =>
    match hg : getEsc p with
    | none => none
    | some (lo, p₁) =>
      match hp : p₁ with
      | '-' :: p₂ =>
        match hg₂ : getEsc p₂ with
        | none => none
        | some (hi, p₃) => classRanges ch p₃ (seen || (decide (lo ≤ ch) && decide (ch ≤ hi))) (n + 1)
      | _ => classRanges ch p₁ (seen || (decide (lo ≤ ch) && decide (ch ≤ lo))) (n + 1)
termination_by p _ _ => p.length
decreasing_by
  · have h1 := getEsc_length hg
    have h2 := getEsc_length hg₂
    subst hp
    simp only [List.length_cons] at h1
    omega
  · have h1 := getEsc_length hg
    try subst hp
    try rw [hp] at h1
    omega

/-- Models filepath.Match from the Go standard library for the Unix
separator, with the full backtracking semantics of the chunked Go algorithm:
star matches any run of non-separator characters, query one non-separator
character, brackets a character class, backslash escapes.  A malformed
pattern yields false, matching the call sites in filter.go which discard
the returned error. -/
def goMatch : List Char → List Char → Bool
  | [], [] => true
  | '*' :: p, s =>
    goMatch p s ||
      (match s with
       | [] => false
       | c :: s₂ => decide (c ≠ '/') && goMatch ('*' :: p) s₂)
  | '?' :: p, c :: s => decide (c ≠ '/') && goMatch p s
  | '\\' :: p, s =>
    (match p, s with
     | c :: p₂, d :: s₂ => decide (c = d) && goMatch p₂ s₂
     | _, _ => false)
  | '[' :: p, c :: s =>
    (let pn : Bool × List Char := match p with
       | '^' :: q => (true, q)
       | _ => (false, p)
     match classRanges c pn.2 false 0 with
     | none => false
     | some (m, rest) => decide (m ≠ pn.1) && goMatch rest s)
  | c :: p, d :: s => decide (c = d) && goMatch p s
  | _, _ => false
termination_by p s => (s.length, p.length)

/-- filepath.Match as used at every call site of filter.go: the error of a
malformed pattern is discarded, leaving false. -/
def filepathMatch (pattern name : String) : Bool :=
  goMatch pattern.toList name.toList

/-- Models filepath.Base for Unix paths: empty gives a dot, trailing slashes
are stripped, the last component is returned, all slashes give the root. -/
def filepathBase (path : String) : String :=
  if path = "" then "."
  else
    let rcs := path.toList.reverse.dropWhile (fun c => c = '/')
    if rcs = [] then "/"
    else String.mk (rcs.takeWhile (fun c => c ≠ '/')).reverse

/-- isHidden from filter.go: the base name is nonempty and starts with a
dot. -/
def isHidden (path : String) : Bool :=
  match (filepathBase path).toList with
  | [] => false
  | c :: _ => c = '.'

/-- Models os.FileInfo as consumed by the filter and the scanner. -/
structure FInfo where
  size : Int
  mode : Nat
  modTime : Int
  isDir : Bool
deriving DecidableEq, Repr

/-- filter.Options.  The compiled regular expression is abstracted as its
matching function regexp.MatchString. -/
structure Options where
  OlderThan : Option Int
  NewerThan : Option Int
  SizeFilter : Int
  SizeOp : String
  Exclude : List String
  Include : List String
  Regex : Option (String → Bool)
  SkipHidden : Bool

/-- filter.Options.Match for a non-nil receiver, translated check by check in
source order: hidden suppression, older-than, newer-than, size (files only,
only when the threshold is positive), include globs, exclude globs, regex. -/
def Options.Match (o : Options) (path : String) (info : FInfo) : Bool :=
  if o.SkipHidden && isHidden path then false
  else if o.OlderThan.elim false (fun t => decide (t < info.modTime)) then false
  else if o.NewerThan.elim false (fun t => decide (info.modTime < t)) then false
  else if (decide (0 < o.SizeFilter) && !info.isDir) &&
          (if o.SizeOp = "+" then decide (info.size ≤ o.SizeFilter)
           else if o.SizeOp = "-" then decide (o.SizeFilter ≤ info.size)
           else false) then false
  else if !o.Include.isEmpty &&
          !(o.Include.any (fun pat =>
              filepathMatch pat (filepathBase path) || filepathMatch pat path)) then false
  else if o.Exclude.any (fun pat =>
          filepathMatch pat (filepathBase path) || filepathMatch pat path) then false
  else if o.Regex.elim false (fun re => !(re path) && !(re (filepathBase path))) then false
  else true

/-- The call-site guard (filterOpts == nil or filterOpts.Match(path, info))
used by Scan and ScanWithCallback; Match itself also begins with a nil
receiver check admitting everything. -/
def matchOpt (o : Option Options) (path : String) (info : FInfo) : Bool :=
  match o with
  | none => true
  | some o => o.Match path info

end Nuke

namespace Nuke

/-- C6: with a size filter (threshold, "+") a regular file of size exactly
threshold is rejected (strict inequality) whatever else is configured, a file
of size threshold + 1 passes a filter configuring only that size check, and a
directory is never rejected by the size check in either direction: its
admission never depends on its size.  A configured size filter has a positive
threshold: Match treats SizeFilter of zero or less as no filter. -/
theorem claim_C6 :
    (∀ (o : Options) (path : String) (mode : Nat) (mt : Int),
        o.SizeOp = "+" → 0 < o.SizeFilter →
        Options.Match o path ⟨o.SizeFilter, mode, mt, false⟩ = false) ∧
    (∀ (t : Int) (path : String) (mode : Nat) (mt : Int), 0 < t →
        Options.Match ⟨none, none, t, "+", [], [], none, false⟩ path ⟨t + 1, mode, mt, false⟩ = true) ∧
    (∀ (t : Int) (op : String) (s : Int) (path : String) (mode : Nat) (mt : Int),
        Options.Match ⟨none, none, t, op, [], [], none, false⟩ path ⟨s, mode, mt, true⟩ = true) ∧
    (∀ (o : Options) (path : String) (mode : Nat) (mt : Int) (s₁ s₂ : Int),
        Options.Match o path ⟨s₁, mode, mt, true⟩ = Options.Match o path ⟨s₂, mode, mt, true⟩) := by
  refine ⟨?_, ?_, ?_, ?_⟩
  · intro o path mode mt hop ht
    simp [Options.Match, hop, ht, ite_self]
  · intro t path mode mt ht
    simp [Options.Match]
  · intro t op s path mode mt
    simp [Options.Match]
  · intro o path mode mt s₁ s₂
    simp [Options.Match]

theorem claim_C6_witness :
    Options.Match ⟨none, none, 5, "+", [], [], none, false⟩ "/tmp/f" ⟨5, 0, 0, false⟩ = false ∧
    Options.Match ⟨none, none, 5, "+", [], [], none, false⟩ "/tmp/f" ⟨5 + 1, 0, 0, false⟩ = true :=
  ⟨claim_C6.1 ⟨none, none, 5, "+", [], [], none, false⟩ "/tmp/f" 0 0 rfl (by decide),
   claim_C6.2.1 5 "/tmp/f" 0 0 (by decide)⟩

/-- C7: with an age-upper-bound (newer-than) cutoff T, every entry modified
strictly before T is rejected, and an entry modified exactly at T is admitted
by a filter configuring only that check. -/
theorem claim_C7 :
    (∀ (o : Options) (T : Int) (path : String) (info : FInfo),
        o.NewerThan = some T → info.modTime < T →
        Options.Match o path info = false) ∧
    (∀ (T : Int) (path : String) (s : Int) (mode : Nat) (d : Bool),
        Options.Match ⟨none, some T, 0, "", [], [], none, false⟩ path ⟨s, mode, T, d⟩ = true) := by
  constructor
  · intro o T path info hnew hlt
    simp [Options.Match, hnew, hlt, ite_self]
  · intro T path s mode d
    simp [Options.Match]

theorem claim_C7_witness :
    Options.Match ⟨none, some 100, 0, "", [], [], none, false⟩ "/a/b" ⟨1, 0, 99, false⟩ = false ∧
    Options.Match ⟨none, some 100, 0, "", [], [], none, false⟩ "/a/b" ⟨1, 0, 100, false⟩ = true :=
  ⟨claim_C7.1 ⟨none, some 100, 0, "", [], [], none, false⟩ 100 "/a/b" ⟨1, 0, 99, false⟩ rfl
      (by decide),
   claim_C7.2 100 "/a/b" 1 0 false⟩

end Nuke

namespace Nuke

/-- Bytewise string ordering, as Go compares path strings; on the ASCII
paths of this development bytewise and rune order agree.  strLtB x y is true
when x sorts strictly before y. -/
def strLtB : List Char → List Char → Bool
  | [], [] => false
  | [], _ :: _ => true
  | _ :: _, [] => false
  | a :: as, b :: bs => if a < b then true else if b < a then false else strLtB as bs

theorem strLtB_asymm : ∀ x y : List Char, strLtB x y = true → strLtB y x = false
  | [], [], h => by simp [strLtB] at h
  | [], _ :: _, _ => by simp [strLtB]
  | _ :: _, [], h => by simp [strLtB] at h
  | a :: as, b :: bs, h => by
    simp only [strLtB] at h ⊢
    rcases lt_trichotomy a b with hab | hab | hab
    · rw [if_neg (lt_asymm hab), if_pos hab]
    · subst hab
      rw [if_neg (lt_irrefl a), if_neg (lt_irrefl a)] at h ⊢
      exact strLtB_asymm as bs h
    · rw [if_neg (lt_asymm hab), if_pos hab] at h
      exact absurd h (by simp)

theorem strLtB_negtrans :
    ∀ x y z : List Char, strLtB y x = false → strLtB z y = false → strLtB z x = false
  | [], _, [], _, _ => by simp [strLtB]
  | [], _, _ :: _, h1, h2 => by simp [strLtB]
  | a :: as, y, z, h1, h2 => by
    match y, z with
    | [], _ => simp [strLtB] at h1
    | _ :: _, [] => simp [strLtB] at h2
    | b :: bs, c :: cs =>
      simp only [strLtB] at h1 h2 ⊢
      by_cases hba : b < a
      · rw [if_pos hba] at h1
        exact absurd h1 (by simp)
      rw [if_neg hba] at h1
      by_cases hcb : c < b
      · rw [if_pos hcb] at h2
        exact absurd h2 (by simp)
      rw [if_neg hcb] at h2
      have hab : a ≤ b := le_of_not_lt hba
      have hbc : b ≤ c := le_of_not_lt hcb
      rw [if_neg (not_lt_of_ge (le_trans hab hbc))]
      by_cases hac : a < c
      · rw [if_pos hac]
      · rw [if_neg hac]
        have h1t : strLtB bs as = false := by
          by_cases hab2 : a < b
          · exact absurd (lt_of_lt_of_le hab2 hbc) hac
          · rw [if_neg hab2] at h1
            exact h1
        have h2t : strLtB cs bs = false := by
          by_cases hbc2 : b < c
          · exact absurd (lt_of_le_of_lt hab hbc2) hac
          · rw [if_neg hbc2] at h2
            exact h2
        exact strLtB_negtrans as bs cs h1t h2t

/-!
### Walker: the scan engine (scanner.go)
-/

/-- scanner.FileInfo: one candidate entry. -/
structure FileInfo where
  Path : String
  Size : Int
  Mode : Nat
  ModTime : Int
  IsDir : Bool
deriving DecidableEq, Repr

/-- A filesystem subtree.  Every node carries the stat data the walker reads
plus environment flags: statOk models whether lstat of the node succeeds and
readable (directories) whether its entries can be listed.  Children are
stored in the order filepath.Walk visits them (Go sorts the names, so a
modelled tree is assumed stored name-sorted). -/
inductive FSTree where
  | file (name : String) (size : Int) (mode : Nat) (mtime : Int) (statOk : Bool)
  | dir (name : String) (size : Int) (mode : Nat) (mtime : Int) (statOk : Bool)
      (readable : Bool) (children : List FSTree)

def FSTree.name : FSTree → String
  | .file n _ _ _ _ => n
  | .dir n _ _ _ _ _ _ => n

def FSTree.statOk : FSTree → Bool
  | .file _ _ _ _ ok => ok
  | .dir _ _ _ _ ok _ _ => ok

def FSTree.isDir : FSTree → Bool
  | .file _ _ _ _ _ => false
  | .dir _ _ _ _ _ _ _ => true

/-- The os.FileInfo of a node. -/
def FSTree.info : FSTree → FInfo
  | .file _ sz md mt _ => ⟨sz, md, mt, false⟩
  | .dir _ sz md mt _ _ _ => ⟨sz, md, mt, true⟩

mutual
/-- Models filepath.Walk rooted at a node whose full path is p, as the list
of walk-function invocations: an event (q, some info) is a call with a nil
error, an event (q, none) a call with a non-nil error, which both scan
functions skip.  A node whose lstat fails and a directory whose listing
fails are each reported exactly once, with the error, as the Go walker
does; walking does not descend into them. -/
def walkVisit (p : String) (t : FSTree) : List (String × Option FInfo) :=
  match t with
  | .file _ sz md mt ok =>
    if ok then [(p, some ⟨sz, md, mt, false⟩)] else [(p, none)]
  | .dir _ sz md mt ok rd cs =>
    if ok then
      if rd then (p, some ⟨sz, md, mt, true⟩) :: walkChildren p cs
      else [(p, none)]
    else [(p, none)]

/-- Visits the children of the directory at path p in stored order; child
paths are formed with the Unix separator (filepath.Join on clean paths). -/
def walkChildren (p : String) (cs : List FSTree) : List (String × Option FInfo) :=
  match cs with
  | [] => []
  | c :: rest => walkVisit (p ++ "/" ++ c.name) c ++ walkChildren p rest
end

/-- countSeparators from scanner.go. -/
def countSeparators (path : String) : Nat :=
  path.toList.foldl (fun n c => if c = '/' then n + 1 else n) 0

/-- The swap condition of the bubble sort in sortByDepth (scanner.go): swap
when the left entry is shallower, or equally deep with a bytewise larger
path (files[j].Path > files[j+1].Path). -/
def depthSwap (a b : FileInfo) : Bool :=
  decide (countSeparators a.Path < countSeparators b.Path) ||
    (decide (countSeparators a.Path = countSeparators b.Path) &&
      strLtB b.Path.toList a.Path.toList)

/-- sortByDepth from scanner.go. -/
def sortByDepth (files : List FileInfo) : List FileInfo :=
  bubbleSort depthSwap files

theorem depthSwap_eq_false_iff (a b : FileInfo) :
    depthSwap a b = false ↔
      countSeparators b.Path < countSeparators a.Path ∨
        (countSeparators a.Path = countSeparators b.Path ∧
          strLtB b.Path.toList a.Path.toList = false) := by
  cases hs : strLtB b.Path.toList a.Path.toList <;>
    simp only [String.toList] at hs <;> simp [depthSwap, String.toList, hs] <;> omega

theorem depthSwap_eq_true_iff (a b : FileInfo) :
    depthSwap a b = true ↔
      countSeparators a.Path < countSeparators b.Path ∨
        (countSeparators a.Path = countSeparators b.Path ∧
          strLtB b.Path.toList a.Path.toList = true) := by
  cases hs : strLtB b.Path.toList a.Path.toList <;>
    simp only [String.toList] at hs <;> simp [depthSwap, String.toList, hs] <;> omega

theorem depthSwap_asymm : ∀ a b : FileInfo, depthSwap a b = true → depthSwap b a = false := by
  intro a b h
  rw [depthSwap_eq_true_iff] at h
  rw [depthSwap_eq_false_iff]
  rcases h with h | ⟨he, hs⟩
  · left
    exact h
  · right
    exact ⟨he.symm, strLtB_asymm _ _ hs⟩

theorem depthSwap_negtrans :
    ∀ a b c : FileInfo, depthSwap a b = false → depthSwap b c = false →
      depthSwap a c = false := by
  intro a b c h1 h2
  rw [depthSwap_eq_false_iff] at h1 h2 ⊢
  rcases h1 with h1 | ⟨e1, s1⟩ <;> rcases h2 with h2 | ⟨e2, s2⟩
  · left
    omega
  · left
    omega
  · left
    omega
  · right
    exact ⟨by omega, strLtB_negtrans _ _ _ s1 s2⟩

/-- The body of the closure Scan passes to filepath.Walk: skip an errored
node, apply the filter, append the candidate. -/
def scanStep (filterOpts : Option Options) (acc : List FileInfo)
    (ev : String × Option FInfo) : List FileInfo :=
  match ev with
  | (_, none) => acc
  | (p, some i) =>
    if matchOpt filterOpts p i then acc ++ [⟨p, i.size, i.mode, i.modTime, i.isDir⟩] else acc

/-- scanner.Scan.  filepath.Abs is modelled as the identity: the model is
given the already absolute, clean root path together with the subtree rooted
there.  The error carries no data (the root could not be statted). -/
def Scan (rootPath : String) (root : FSTree) (recursive : Bool)
    (filterOpts : Option Options) : Except Unit (List FileInfo) :=
  if root.statOk = false then .error ()
  else if root.isDir = false then
    .ok (if matchOpt filterOpts rootPath root.info then
      [⟨rootPath, root.info.size, root.info.mode, root.info.modTime, false⟩] else [])
  else if recursive = false then
    .ok (if matchOpt filterOpts rootPath root.info then
      [⟨rootPath, root.info.size, root.info.mode, root.info.modTime, true⟩] else [])
  else
    .ok (sortByDepth ((walkVisit rootPath root).foldl (scanStep filterOpts) []))

/-- The body of the closure ScanWithCallback passes to filepath.Walk;
structurally a duplicate of the one in Scan, as in the source. -/
def swcStep (filterOpts : Option Options) (acc : List FileInfo)
    (ev : String × Option FInfo) : List FileInfo :=
  match ev with
  | (_, none) => acc
  | (p, some i) =>
    if matchOpt filterOpts p i then acc ++ [⟨p, i.size, i.mode, i.modTime, i.isDir⟩] else acc

/-- scanner.ScanWithCallback, modelled as the list of FileInfo values passed
to the callback, in invocation order. -/
def ScanWithCallback (rootPath : String) (root : FSTree) (recursive : Bool)
    (filterOpts : Option Options) : Except Unit (List FileInfo) :=
  if root.statOk = false then .error ()
  else if root.isDir = false then
    .ok (if matchOpt filterOpts rootPath root.info then
      [⟨rootPath, root.info.size, root.info.mode, root.info.modTime, false⟩] else [])
  else if recursive = false then
    .ok (if matchOpt filterOpts rootPath root.info then
      [⟨rootPath, root.info.size, root.info.mode, root.info.modTime, true⟩] else [])
  else
    .ok ((walkVisit rootPath root).foldl (swcStep filterOpts) [])

theorem sortByDepth_nil : sortByDepth [] = [] := rfl

theorem sortByDepth_singleton (x : FileInfo) : sortByDepth [x] = [x] := rfl

theorem scanStep_eq_swcStep : scanStep = swcStep := rfl

/-- The ordering the specification asserts for Scan results: deeper paths
first, ties broken by descending bytewise path order. -/
def claimedDepthOrder (a b : FileInfo) : Prop :=
  countSeparators b.Path < countSeparators a.Path ∨
    (countSeparators a.Path = countSeparators b.Path ∧
      strLtB a.Path.toList b.Path.toList = false)

instance : DecidableRel claimedDepthOrder := by
  intro a b
  unfold claimedDepthOrder
  infer_instance

/-- A directory with two equally deep children. -/
def exTreeAB : FSTree :=
  .dir "r" 96 0 0 true true [.file "a" 1 0 0 true, .file "b" 1 0 0 true]

/-- The directory tree a/b/c.txt named by the specification. -/
def exTreeABC : FSTree :=
  .dir "a" 96 0 5 true true [.dir "b" 64 0 6 true true [.file "c.txt" 3 0 7 true]]

/-- C1, as stated: refuted.  On a recursive scan of a directory holding two
equally deep children a and b, Scan returns a before b: equal-depth ties are
broken in ascending, not descending, path order (the bubble sort in
sortByDepth swaps when the left path is the larger one). -/
theorem claim_C1_counterexample :
    Scan "/r" exTreeAB true none =
      .ok [⟨"/r/a", 1, 0, 0, false⟩, ⟨"/r/b", 1, 0, 0, false⟩, ⟨"/r", 96, 0, 0, true⟩] ∧
    ¬ List.Pairwise claimedDepthOrder
      [⟨"/r/a", 1, 0, 0, false⟩, ⟨"/r/b", 1, 0, 0, false⟩, ⟨"/r", 96, 0, 0, true⟩] := by
  constructor
  · simp [Scan, exTreeAB, walkVisit, walkChildren, FSTree.statOk, FSTree.isDir, FSTree.info,
      FSTree.name, scanStep, matchOpt, sortByDepth, bubbleSort, bubblePass, bubblePassAux,
      depthSwap, countSeparators, strLtB, Function.iterate_succ, Function.iterate_zero]
  · decide

/-- C1 amended: every recursive Scan result is sorted deepest first with
equal-depth ties broken by ascending bytewise path order (depthSwap a b =
false means a may stand before b: a is deeper, or equally deep with a path
not bytewise greater); and on the tree a/b/c.txt the result places
a/b/c.txt before a/b before a, as the claim requires. -/
theorem claim_C1_amended :
    (∀ (rootPath : String) (root : FSTree) (filterOpts : Option Options) (l : List FileInfo),
        Scan rootPath root true filterOpts = .ok l →
        List.Sorted (fun a b => depthSwap a b = false) l) ∧
    Scan "/a" exTreeABC true none =
      .ok [⟨"/a/b/c.txt", 3, 0, 7, false⟩, ⟨"/a/b", 64, 0, 6, true⟩, ⟨"/a", 96, 0, 5, true⟩] := by
  constructor
  · intro rootPath root filterOpts l h
    unfold Scan at h
    split at h
    · exact absurd h (by simp)
    · split at h
      · rw [Except.ok.injEq] at h
        split at h <;> rw [← h]
        · exact List.sorted_singleton _
        · exact List.sorted_nil
      · rw [if_neg (by decide : ¬ ((true : Bool) = false))] at h
        rw [Except.ok.injEq] at h
        rw [← h]
        exact bubbleSort_sorted depthSwap depthSwap_asymm depthSwap_negtrans _
  · simp [Scan, exTreeABC, walkVisit, walkChildren, FSTree.statOk, FSTree.isDir, FSTree.info,
      FSTree.name, scanStep, matchOpt, sortByDepth, bubbleSort, bubblePass, bubblePassAux,
      depthSwap, countSeparators, strLtB, Function.iterate_succ, Function.iterate_zero]

theorem claim_C1_amended_witness :
    List.Sorted (fun a b => depthSwap a b = false)
      [⟨"/r/a", 1, 0, 0, false⟩, ⟨"/r/b", 1, 0, 0, false⟩, ⟨"/r", 96, 0, 0, true⟩] :=
  claim_C1_amended.1 "/r" exTreeAB none _ (by simp [Scan, exTreeAB, walkVisit, walkChildren, FSTree.statOk, FSTree.isDir,
      FSTree.info, FSTree.name, scanStep, matchOpt, sortByDepth, bubbleSort, bubblePass,
      bubblePassAux, depthSwap, countSeparators, strLtB, Function.iterate_succ,
      Function.iterate_zero])

/-- C9: for every root, recursion flag and filter, Scan equals
ScanWithCallback followed by the depth sort; on a recursive directory walk
the callback trace is exactly the pre-sort accumulation of Scan (the fold
of the walk events under the scanStep closure) and Scan returns precisely
its depth sort, so both operations select the same candidate set (the
results are permutations of one another). -/
theorem claim_C9 :
    ∀ (rootPath : String) (root : FSTree) (recursive : Bool) (filterOpts : Option Options),
      (root.statOk = true → root.isDir = true → recursive = true →
        ScanWithCallback rootPath root recursive filterOpts =
          .ok ((walkVisit rootPath root).foldl (scanStep filterOpts) []) ∧
        Scan rootPath root recursive filterOpts =
          .ok (sortByDepth ((walkVisit rootPath root).foldl (scanStep filterOpts) []))) ∧
      Scan rootPath root recursive filterOpts =
        Except.map sortByDepth (ScanWithCallback rootPath root recursive filterOpts) ∧
      (∀ l l', Scan rootPath root recursive filterOpts = .ok l →
        ScanWithCallback rootPath root recursive filterOpts = .ok l' → List.Perm l l') := by
  intro rootPath root recursive filterOpts
  have hmain : Scan rootPath root recursive filterOpts =
      Except.map sortByDepth (ScanWithCallback rootPath root recursive filterOpts) := by
    unfold Scan ScanWithCallback
    split
    · rfl
    · split
      · split
        · simp [Except.map, sortByDepth_singleton]
        · simp [Except.map, sortByDepth_nil]
      · split
        · split
          · simp [Except.map, sortByDepth_singleton]
          · simp [Except.map, sortByDepth_nil]
        · simp [Except.map, scanStep_eq_swcStep]
  refine ⟨?_, hmain, ?_⟩
  · intro hok hdir hrec
    subst hrec
    constructor
    · unfold ScanWithCallback
      rw [hok, hdir]
      simp [scanStep_eq_swcStep]
    · unfold Scan
      rw [hok, hdir]
      simp
  · intro l l' h h'
    rw [hmain, h'] at h
    simp only [Except.map, Except.ok.injEq] at h
    rw [← h]
    exact bubbleSort_perm depthSwap l'

theorem claim_C9_witness :
    ScanWithCallback "/r" exTreeAB true none =
      .ok ((walkVisit "/r" exTreeAB).foldl (scanStep none) []) ∧
    List.Perm [⟨"/r/a", 1, 0, 0, false⟩, ⟨"/r/b", 1, 0, 0, false⟩, ⟨"/r", 96, 0, 0, true⟩]
      ([⟨"/r", 96, 0, 0, true⟩, ⟨"/r/a", 1, 0, 0, false⟩, ⟨"/r/b", 1, 0, 0, false⟩] :
        List FileInfo) :=
  ⟨((claim_C9 "/r" exTreeAB true none).1 rfl rfl rfl).1,
   (claim_C9 "/r" exTreeAB true none).2.2 _ _
    (by simp [Scan, exTreeAB, walkVisit, walkChildren, FSTree.statOk, FSTree.isDir,
      FSTree.info, FSTree.name, scanStep, matchOpt, sortByDepth, bubbleSort, bubblePass,
      bubblePassAux, depthSwap, countSeparators, strLtB, Function.iterate_succ,
      Function.iterate_zero])
    (by simp [ScanWithCallback, exTreeAB, walkVisit, walkChildren, FSTree.statOk, FSTree.isDir,
      FSTree.info, FSTree.name, swcStep, matchOpt])⟩

end Nuke

namespace Nuke

/-!
### Deletion Engine (deleter.go)
-/

/-- deleter.Deleter.  The trash manager is abstracted to its presence. -/
structure Deleter where
  workers : Int
  shred : Bool
  trashMgr : Option Unit

/-- deleter.New: a non-positive worker count falls back to 8 workers. -/
def Deleter.New (workers : Int) (shred : Bool) (trashMgr : Option Unit) : Deleter :=
  if workers ≤ 0 then ⟨8, shred, trashMgr⟩ else ⟨workers, shred, trashMgr⟩

/-- The byte pattern a shred pass writes. -/
inductive WriteKind where
  | random
  | zeros
deriving DecidableEq, Repr

/-- One observable filesystem action of the per-file disposition. -/
inductive FileEv where
  | seek
  | write (kind : WriteKind) (n : Int)
  | sync
  | unlink
  | stage
  | remove
deriving DecidableEq, Repr

/-- The chunk sizes of one overwrite pass: the inner loop of shredFile walks
the recorded size in steps bounded by the 64 KiB buffer, assuming the full
requested amount is written each call. -/
def chunkSizes (remaining : Int) : List Int :=
  if h : 0 < remaining then
    min 65536 remaining :: chunkSizes (remaining - min 65536 remaining)
  else []
termination_by remaining.toNat
decreasing_by
  omega

/-- Pass parity from shredFile: even passes write random bytes, odd passes
zero bytes. -/
def passKind (pass : Nat) : WriteKind :=
  if pass % 2 = 0 then WriteKind.random else WriteKind.zeros

/-- One overwrite pass of shredFile: seek to offset 0, write the recorded
size in chunks, then sync. -/
def passTrace (pass : Nat) (size : Int) : List FileEv :=
  FileEv.seek :: ((chunkSizes size).map (fun c => FileEv.write (passKind pass) c) ++ [FileEv.sync])

/-- shredFile from deleter.go as its trace of filesystem actions on the
non-failing path: passes := 3 overwrite passes over the recorded size, then
the file is removed. -/
def shredFileTrace (size : Int) : List FileEv :=
  ((List.range 3).map (fun pass => passTrace pass size)).flatten ++ [FileEv.unlink]

/-- softDelete from deleter.go: stage into the trash manager, falling back
to a direct remove when none is configured. -/
def softDeleteTrace (d : Deleter) : List FileEv :=
  match d.trashMgr with
  | none => [FileEv.remove]
  | some _ => [FileEv.stage]

/-- The per-file disposition of the worker body in deleteFilesConcurrently:
shred mode shreds the file, otherwise it is soft deleted. -/
def fileOpTrace (d : Deleter) (f : FileInfo) : List FileEv :=
  if d.shred then shredFileTrace f.Size else softDeleteTrace d

theorem chunkSizes_sum : ∀ n : Int, 0 ≤ n → (chunkSizes n).sum = n := by
  have key : ∀ (k : Nat) (n : Int), n.toNat ≤ k → 0 ≤ n → (chunkSizes n).sum = n := by
    intro k
    induction k with
    | zero =>
      intro n h1 h2
      rw [chunkSizes]
      rw [dif_neg (by omega)]
      simp
      omega
    | succ k ih =>
      intro n h1 h2
      rw [chunkSizes]
      by_cases h : 0 < n
      · rw [dif_pos h]
        rw [List.sum_cons, ih (n - min 65536 n) (by omega) (by omega)]
        omega
      · rw [dif_neg h]
        simp
        omega
  intro n h
  exact key n.toNat n (Nat.le_refl _) h

theorem chunkSizes_mem : ∀ (n c : Int), c ∈ chunkSizes n → 0 < c ∧ c ≤ 65536 := by
  have key : ∀ (k : Nat) (n c : Int), n.toNat ≤ k → c ∈ chunkSizes n → 0 < c ∧ c ≤ 65536 := by
    intro k
    induction k with
    | zero =>
      intro n c h1 hmem
      rw [chunkSizes, dif_neg (by omega)] at hmem
      simp at hmem
    | succ k ih =>
      intro n c h1 hmem
      rw [chunkSizes] at hmem
      by_cases h : 0 < n
      · rw [dif_pos h] at hmem
        rcases List.mem_cons.mp hmem with hc | hc
        · constructor <;> omega
        · exact ih (n - min 65536 n) c (by omega) hc
      · rw [dif_neg h] at hmem
        simp at hmem
  intro n c hmem
  exact key n.toNat n c (Nat.le_refl _) hmem

theorem passTrace_count_sync (pass : Nat) (n : Int) :
    (passTrace pass n).count FileEv.sync = 1 := by
  simp [passTrace, List.count_cons, List.count_append, List.count_eq_zero]

theorem stage_not_mem_passTrace (pass : Nat) (n : Int) :
    FileEv.stage ∉ passTrace pass n := by
  simp [passTrace]

/-- C2: in shred mode the worker applies shredFile and nothing else; the
trace consists of exactly 3 passes over the recorded size followed by the
unlink; passes 0 and 2 write random bytes and pass 1 zero bytes; each pass
seeks to 0, writes chunks of at most 64 KiB summing to the recorded size,
and ends in a durability sync (so 3 syncs in total); the last action is the
unlink; and no stage action ever occurs, so a shredded file is never staged
into the trash store. -/
theorem claim_C2 :
    ∀ (d : Deleter) (f : FileInfo), d.shred = true → 0 ≤ f.Size →
      (fileOpTrace d f = shredFileTrace f.Size) ∧
      (shredFileTrace f.Size =
        passTrace 0 f.Size ++ passTrace 1 f.Size ++ passTrace 2 f.Size ++ [FileEv.unlink]) ∧
      (passKind 0 = WriteKind.random ∧ passKind 1 = WriteKind.zeros ∧
        passKind 2 = WriteKind.random) ∧
      ((chunkSizes f.Size).sum = f.Size) ∧
      (∀ c ∈ chunkSizes f.Size, 0 < c ∧ c ≤ 65536) ∧
      ((shredFileTrace f.Size).count FileEv.sync = 3) ∧
      ((shredFileTrace f.Size).getLast? = some FileEv.unlink) ∧
      (FileEv.stage ∉ fileOpTrace d f) := by
  intro d f hshred hsize
  have hdec : shredFileTrace f.Size =
      passTrace 0 f.Size ++ passTrace 1 f.Size ++ passTrace 2 f.Size ++ [FileEv.unlink] := by
    simp [shredFileTrace, List.range_succ]
  refine ⟨by simp [fileOpTrace, hshred], hdec, by decide, chunkSizes_sum f.Size hsize,
    fun c hc => chunkSizes_mem f.Size c hc, ?_, ?_, ?_⟩
  · rw [hdec]
    simp [List.count_append, passTrace_count_sync]
  · rw [shredFileTrace]
    exact List.getLast?_concat _
  · simp only [fileOpTrace, hshred, if_true, hdec]
    simp only [List.mem_append]
    push_neg
    refine ⟨⟨⟨stage_not_mem_passTrace 0 f.Size, stage_not_mem_passTrace 1 f.Size⟩,
      stage_not_mem_passTrace 2 f.Size⟩, by simp⟩

theorem claim_C2_witness :
    fileOpTrace ⟨8, true, none⟩ ⟨"/x/f", 70000, 0, 0, false⟩ =
      shredFileTrace 70000 ∧
    (chunkSizes (70000 : Int)).sum = 70000 ∧
    (shredFileTrace (70000 : Int)).count FileEv.sync = 3 ∧
    FileEv.stage ∉ fileOpTrace ⟨8, true, none⟩ ⟨"/x/f", 70000, 0, 0, false⟩ := by
  obtain ⟨h1, _, _, h4, _, h6, _, h8⟩ :=
    claim_C2 ⟨8, true, none⟩ ⟨"/x/f", 70000, 0, 0, false⟩ rfl (by decide)
  exact ⟨h1, h4, h6, h8⟩

/-- One callback report of Delete: each processed item is reported once
through the progress callback. -/
inductive DelEv where
  | file (f : FileInfo)
  | dir (f : FileInfo)
deriving DecidableEq, Repr

/-- The regular-file part of the partition loop at the top of Delete, in
arrival order. -/
def regularFilesOf (files : List FileInfo) : List FileInfo :=
  files.filter (fun f => !f.IsDir)

/-- The directory part of the partition loop at the top of Delete, in
arrival order. -/
def directoriesOf (files : List FileInfo) : List FileInfo :=
  files.filter (fun f => f.IsDir)

/-- The comparator of the sort.Slice call in Delete: longer paths first. -/
def dirLenGe (a b : FileInfo) : Prop :=
  b.Path.length ≤ a.Path.length

instance : DecidableRel dirLenGe := fun a b => by
  unfold dirLenGe
  infer_instance

instance : IsTotal FileInfo dirLenGe :=
  ⟨fun a b => le_total b.Path.length a.Path.length⟩

instance : IsTrans FileInfo dirLenGe :=
  ⟨fun _ _ _ hab hbc => le_trans hbc hab⟩

/-- Models sort.Slice(directories, longest path first).  sort.Slice promises
only a permutation ordered by the comparator, realised here by insertion
sort. -/
def sortDirs (dirs : List FileInfo) : List FileInfo :=
  List.insertionSort dirLenGe dirs

/-- A state of one run of Delete: the files not yet processed by the worker
pool, the sorted directory queue, and the callback trace so far. -/
structure DelState where
  pending : List FileInfo
  dirQueue : List FileInfo
  trace : List DelEv
deriving DecidableEq, Repr

/-- The start of Delete on a candidate list: partition, then sort the
directories deepest (longest path) first. -/
def DelState.init (files : List FileInfo) : DelState :=
  ⟨regularFilesOf files, sortDirs (directoriesOf files), []⟩

/-- Small-step semantics of Delete: any pending file may complete next, in
any order (the workers interleave arbitrarily); a directory is removed only
once no file is pending (the WaitGroup barrier before the directory loop),
sequentially in queue order.  Every completion appends one callback
report. -/
inductive DelStep : DelState → DelState → Prop where
  | fileDone (f : FileInfo) (pending dirQueue : List FileInfo) (trace : List DelEv)
      (hf : f ∈ pending) :
      DelStep ⟨pending, dirQueue, trace⟩
        ⟨pending.erase f, dirQueue, trace ++ [DelEv.file f]⟩
  | dirDone (d : FileInfo) (dirQueue : List FileInfo) (trace : List DelEv) :
      DelStep ⟨[], d :: dirQueue, trace⟩ ⟨[], dirQueue, trace ++ [DelEv.dir d]⟩

/-- The states a run of Delete on a candidate list can reach. -/
def DelReachable (files : List FileInfo) (s : DelState) : Prop :=
  Relation.ReflTransGen DelStep (DelState.init files) s

/-- C5: in every run of Delete the callback trace decomposes into file
reports followed by directory reports; once any directory has been
processed (k positive), no file is pending, so with the permutation fact the
file reports cover every regular-file candidate before the first directory
report (a full barrier); the directory reports follow the sorted queue in
order, and that queue is sorted by descending path length. -/
theorem claim_C5 :
    (∀ files : List FileInfo, List.Sorted dirLenGe (sortDirs (directoriesOf files))) ∧
    (∀ (files : List FileInfo) (s : DelState), DelReachable files s →
      ∃ (fs : List FileInfo) (k : Nat),
        s.trace = fs.map DelEv.file ++
          ((sortDirs (directoriesOf files)).take k).map DelEv.dir ∧
        s.dirQueue = (sortDirs (directoriesOf files)).drop k ∧
        List.Perm (fs ++ s.pending) (regularFilesOf files) ∧
        (0 < k → s.pending = [])) := by
  constructor
  · intro files
    exact List.sorted_insertionSort dirLenGe (directoriesOf files)
  · intro files s hreach
    induction hreach with
    | refl =>
      exact ⟨[], 0, by simp [DelState.init], by simp [DelState.init],
        by simp [DelState.init], by simp⟩
    | tail hsteps hstep ih =>
      obtain ⟨fs, k, h1, h2, h3, h4⟩ := ih
      cases hstep with
      | fileDone f pending dirQueue trace hf =>
        dsimp only at h1 h2 h3 h4
        have hk : k = 0 := by
          by_contra hk0
          have hp : pending = [] := h4 (Nat.pos_of_ne_zero hk0)
          rw [hp] at hf
          exact absurd hf (List.not_mem_nil f)
        subst hk
        refine ⟨fs ++ [f], 0, ?_, h2, ?_, by simp⟩
        · simp only [List.take_zero, List.map_nil, List.append_nil] at h1
          simp [h1]
        · have hperm : List.Perm (f :: pending.erase f) pending :=
            (List.perm_cons_erase hf).symm
          have hassoc : (fs ++ [f]) ++ pending.erase f = fs ++ (f :: pending.erase f) := by
            simp
          rw [hassoc]
          exact (hperm.append_left fs).trans h3
      | dirDone d dirQueue trace =>
        dsimp only at h1 h2 h3 h4
        have hklen : k < (sortDirs (directoriesOf files)).length := by
          by_contra hge
          have hnil : (sortDirs (directoriesOf files)).drop k = [] :=
            List.drop_eq_nil_of_le (le_of_not_lt hge)
          rw [← h2] at hnil
          exact absurd hnil (by simp)
        have hlen_take : ((sortDirs (directoriesOf files)).take k).length = k := by
          rw [List.length_take]
          omega
        have hfull : (sortDirs (directoriesOf files)).take k ++ (d :: dirQueue) =
            sortDirs (directoriesOf files) := by
          rw [h2]
          exact List.take_append_drop k _
        have hgetk : (sortDirs (directoriesOf files))[k]? = some d := by
          conv_lhs => rw [← hfull]
          rw [List.getElem?_append_right (by rw [hlen_take])]
          simp [hlen_take]
        have hsplit : (sortDirs (directoriesOf files)).take (k + 1) =
            (sortDirs (directoriesOf files)).take k ++ [d] := by
          rw [List.take_succ, hgetk]
          rfl
        have hdrop : (sortDirs (directoriesOf files)).drop (k + 1) = dirQueue := by
          rw [← List.tail_drop, ← h2]
          rfl
        refine ⟨fs, k + 1, ?_, by simp [hdrop], ?_, fun _ => rfl⟩
        · dsimp only
          rw [hsplit]
          simp [h1]
        · dsimp only
          simpa using h3

theorem claim_C5_witness :
    ∃ (fs : List FileInfo) (k : Nat),
      (DelState.init [⟨"/t/f1", 1, 0, 0, false⟩, ⟨"/t", 2, 0, 0, true⟩]).trace =
        fs.map DelEv.file ++
          ((sortDirs (directoriesOf [⟨"/t/f1", 1, 0, 0, false⟩, ⟨"/t", 2, 0, 0, true⟩])).take
            k).map DelEv.dir ∧
      (DelState.init [⟨"/t/f1", 1, 0, 0, false⟩, ⟨"/t", 2, 0, 0, true⟩]).dirQueue =
        (sortDirs (directoriesOf [⟨"/t/f1", 1, 0, 0, false⟩, ⟨"/t", 2, 0, 0, true⟩])).drop k ∧
      List.Perm (fs ++ (DelState.init [⟨"/t/f1", 1, 0, 0, false⟩, ⟨"/t", 2, 0, 0, true⟩]).pending)
        (regularFilesOf [⟨"/t/f1", 1, 0, 0, false⟩, ⟨"/t", 2, 0, 0, true⟩]) ∧
      (0 < k →
        (DelState.init [⟨"/t/f1", 1, 0, 0, false⟩, ⟨"/t", 2, 0, 0, true⟩]).pending = []) :=
  claim_C5.2 [⟨"/t/f1", 1, 0, 0, false⟩, ⟨"/t", 2, 0, 0, true⟩] _ Relation.ReflTransGen.refl

end Nuke

namespace Nuke

/-!
### Trash Store (trash.go)
-/

/-- The filesystem state trash.Manager.Empty manipulates: the contents of
the staging (files) directory and of the metadata directory, plus their
existence.  Removal and creation are modelled on their non-failing paths;
an error return of Empty happens only when one of those filesystem calls
fails. -/
structure TrashFS where
  trashFiles : List String
  metaFiles : List String
  trashDirExists : Bool
  metaDirExists : Bool
deriving DecidableEq, Repr

/-- trash.Manager.Empty: os.RemoveAll on the staging tree, os.RemoveAll on
the metadata tree, then os.MkdirAll recreates both, leaving two present,
empty directories. -/
def Empty (st : TrashFS) : Except String TrashFS :=
  let st₁ : TrashFS := ⟨[], st.metaFiles, false, st.metaDirExists⟩
  let st₂ : TrashFS := ⟨st₁.trashFiles, [], st₁.trashDirExists, false⟩
  let st₃ : TrashFS := ⟨st₂.trashFiles, st₂.metaFiles, true, st₂.metaDirExists⟩
  .ok ⟨st₃.trashFiles, st₃.metaFiles, st₃.trashDirExists, true⟩

/-- C8: Empty is idempotent: from any trash state the first call yields the
state with both directories present and empty, returns no error, and a
second call returns no error and the same empty state. -/
theorem claim_C8 :
    ∀ st : TrashFS, ∃ st' : TrashFS,
      Empty st = .ok st' ∧ Empty st' = .ok st' ∧
      st'.trashFiles = [] ∧ st'.metaFiles = [] ∧
      st'.trashDirExists = true ∧ st'.metaDirExists = true := by
  intro st
  exact ⟨⟨[], [], true, true⟩, rfl, rfl, rfl, rfl, rfl, rfl⟩

theorem claim_C8_witness :
    ∃ st' : TrashFS,
      Empty ⟨["1_a"], ["1_a.json"], true, true⟩ = .ok st' ∧ Empty st' = .ok st' ∧
      st'.trashFiles = [] ∧ st'.metaFiles = [] ∧
      st'.trashDirExists = true ∧ st'.metaDirExists = true :=
  claim_C8 ⟨["1_a"], ["1_a.json"], true, true⟩

/-- One trash metadata record together with the environment facts the
eviction model needs: whether the staged data still exists on disk, and
whether os.RemoveAll of the staged path would succeed.  Records are taken
as well formed (the .json suffix and parse checks of List always pass). -/
structure TEntry where
  OriginalPath : String
  TrashPath : String
  DeletedAt : Int
  Size : Int
  IsDir : Bool
  dataExists : Bool
  removeOk : Bool
deriving DecidableEq, Repr

/-- trash.Manager.List: reads every metadata record and silently drops any
record whose staged path no longer exists; returns the surviving entries
and their total size.  The source recomputes directory sizes by walking the
staged subtree; the model lets Size denote that current staged size. -/
def listTrash (st : List TEntry) : List TEntry × Int :=
  let es := st.filter (fun e => e.dataExists)
  (es, (es.map (fun e => e.Size)).sum)

/-- os.Remove of the metadata record derived from the staged path name: the
record disappears from the metadata directory. -/
def removeMeta (st : List TEntry) (tp : String) : List TEntry :=
  st.filter (fun e => e.TrashPath ≠ tp)

/-- A successful os.RemoveAll of the staged data: the staged path is gone,
the metadata untouched. -/
def removeData (st : List TEntry) (tp : String) : List TEntry :=
  st.map (fun e => if e.TrashPath = tp then { e with dataExists := false } else e)

/-- The first pass of AutoCleanup over the listed entries: an entry deleted
before the cutoff has its staged data removed (counted in the tallies only
on success) and its metadata record removed unconditionally. -/
def phase1Loop (cutoff : Int) : List TEntry → List TEntry → Int × Int × List TEntry
  | [], st => (0, 0, st)
  | e :: rest, st =>
    if e.DeletedAt < cutoff then
      let ok := e.removeOk
      let st₁ := if ok then removeData st e.TrashPath else st
      let st₂ := removeMeta st₁ e.TrashPath
      let r := phase1Loop cutoff rest st₂
      ((if ok then 1 else 0) + r.1, (if ok then e.Size else 0) + r.2.1, r.2.2)
    else phase1Loop cutoff rest st

/-- The swap condition of the oldest-first bubble sort in AutoCleanup: swap
when the left entry was deleted after the right one. -/
def deletedAfterSwap (a b : TEntry) : Bool :=
  decide (b.DeletedAt < a.DeletedAt)

/-- The second pass of AutoCleanup: walk the oldest-first order and remove
entries while the running size estimate still exceeds the cap; metadata is
removed unconditionally, the tallies count only successful data removal. -/
def phase2Loop (maxSizeBytes : Int) :
    List TEntry → Int → List TEntry → Int × Int × List TEntry
  | [], _, st => (0, 0, st)
  | e :: rest, newTotal, st =>
    if newTotal ≤ maxSizeBytes then (0, 0, st)
    else
      let ok := e.removeOk
      let st₁ := if ok then removeData st e.TrashPath else st
      let st₂ := removeMeta st₁ e.TrashPath
      let r := phase2Loop maxSizeBytes rest (newTotal - (if ok then e.Size else 0)) st₂
      ((if ok then 1 else 0) + r.1, (if ok then e.Size else 0) + r.2.1, r.2.2)

/-- trash.Manager.AutoCleanup, returning (itemsRemoved, bytesFreed, final
metadata state).  time.Time is Unix seconds; AddDate(0, 0, -retentionDays)
is modelled as retentionDays fixed-length days before now; Before is the
strict comparison. -/
def AutoCleanup (st : List TEntry) (retentionDays maxSizeMB : Int) (now : Int) :
    Int × Int × List TEntry :=
  let entries := (listTrash st).1
  let totalSize := (listTrash st).2
  if entries.isEmpty then (0, 0, st)
  else
    let maxSizeBytes := maxSizeMB * 1024 * 1024
    let cutoffTime := now - retentionDays * 86400
    let p1 := phase1Loop cutoffTime entries st
    let newTotalSize := totalSize - p1.2.1
    if newTotalSize > maxSizeBytes then
      let remaining := (listTrash p1.2.2).1
      let sorted := bubbleSort deletedAfterSwap remaining
      let p2 := phase2Loop maxSizeBytes sorted newTotalSize p1.2.2
      (p1.1 + p2.1, p1.2.1 + p2.2.1, p2.2.2)
    else p1

theorem mem_removeMeta {st : List TEntry} {tp : String} {x : TEntry} :
    x ∈ removeMeta st tp ↔ x ∈ st ∧ x.TrashPath ≠ tp := by
  simp [removeMeta]

theorem mem_removeData {st : List TEntry} {tp : String} {x : TEntry} :
    x ∈ removeData st tp →
      x ∈ st ∨ ∃ y ∈ st, x = { y with dataExists := false } := by
  intro hx
  simp only [removeData, List.mem_map] at hx
  obtain ⟨y, hy, hxy⟩ := hx
  by_cases h : y.TrashPath = tp
  · rw [if_pos h] at hxy
    exact Or.inr ⟨y, hy, hxy.symm⟩
  · rw [if_neg h] at hxy
    exact Or.inl (hxy ▸ hy)

theorem mem_removeData_of_ne {st : List TEntry} {tp : String} {x : TEntry}
    (hx : x ∈ removeData st tp) (hne : x.TrashPath ≠ tp) : x ∈ st := by
  simp only [removeData, List.mem_map] at hx
  obtain ⟨y, hy, hxy⟩ := hx
  by_cases h : y.TrashPath = tp
  · rw [if_pos h] at hxy
    rw [← hxy] at hne
    exact absurd h hne
  · rw [if_neg h] at hxy
    exact hxy ▸ hy

/-- After phase 1, no surviving record with existing data is expired,
provided every listed expired record was enumerated. -/
theorem phase1Loop_no_expired (cutoff : Int) :
    ∀ (es st : List TEntry),
      (∀ x ∈ st, x.dataExists = true → x.DeletedAt < cutoff → x ∈ es) →
      ∀ e ∈ (phase1Loop cutoff es st).2.2, e.dataExists = true → ¬ e.DeletedAt < cutoff
  | [], st, hcov => by
    intro e he hd hlt
    exact absurd (hcov e he hd hlt) (List.not_mem_nil e)
  | e :: rest, st, hcov => by
    simp only [phase1Loop]
    by_cases hexp : e.DeletedAt < cutoff
    · rw [if_pos hexp]
      refine phase1Loop_no_expired cutoff rest _ ?_
      intro x hx hd hlt
      have hx2 := mem_removeMeta.mp hx
      have hxst : x ∈ (if e.removeOk then removeData st e.TrashPath else st) := hx2.1
      have hxne : x.TrashPath ≠ e.TrashPath := hx2.2
      have hxst0 : x ∈ st := by
        by_cases hok : e.removeOk
        · rw [if_pos hok] at hxst
          exact mem_removeData_of_ne hxst hxne
        · rw [if_neg hok] at hxst
          exact hxst
      rcases List.mem_cons.mp (hcov x hxst0 hd hlt) with hxe | hxr
      · exact absurd (congrArg TEntry.TrashPath hxe) hxne
      · exact hxr
    · rw [if_neg hexp]
      refine phase1Loop_no_expired cutoff rest st ?_
      intro x hx hd hlt
      rcases List.mem_cons.mp (hcov x hx hd hlt) with hxe | hxr
      · rw [hxe] at hlt
        exact absurd hlt hexp
      · exact hxr

/-- phase 2 only shrinks the record set (up to clearing the data flag). -/
theorem phase2Loop_pred (maxSizeBytes : Int) (P : TEntry → Prop)
    (hflip : ∀ y, P y → P { y with dataExists := false }) :
    ∀ (es : List TEntry) (nt : Int) (st : List TEntry),
      (∀ x ∈ st, P x) → ∀ e ∈ (phase2Loop maxSizeBytes es nt st).2.2, P e
  | [], nt, st, hall => by
    intro e he
    exact hall e he
  | e :: rest, nt, st, hall => by
    simp only [phase2Loop]
    by_cases hcap : nt ≤ maxSizeBytes
    · rw [if_pos hcap]
      intro x hx
      exact hall x hx
    · rw [if_neg hcap]
      refine phase2Loop_pred maxSizeBytes P hflip rest _ _ ?_
      intro x hx
      have hx2 := mem_removeMeta.mp hx
      have hxst : x ∈ (if e.removeOk then removeData st e.TrashPath else st) := hx2.1
      by_cases hok : e.removeOk
      · rw [if_pos hok] at hxst
        rcases mem_removeData hxst with hmem | ⟨y, hy, hxy⟩
        · exact hall x hmem
        · exact hxy ▸ hflip y (hall y hy)
      · rw [if_neg hok] at hxst
        exact hall x hxst

/-- C3: the two-phase retention sweep.  The scenario of the claim: with a
30-day retention and a zero size cap, a 10 KB entry deleted 40 days ago and
a 10 KB entry deleted 1 day ago are both removed (the first in phase 1, the
second in phase 2), the trash is left empty and itemsRemoved is 2.  In
general: after AutoCleanup no surviving listed record is older than the
cutoff (phase 1 is unconditional); when the size remaining after phase 1 is
within the cap, the result is exactly the phase 1 result (phase 2 runs only
on excess); and the phase 2 processing order sorts ascending by deletion
timestamp (oldest first). -/
theorem claim_C3 :
    (AutoCleanup
      [⟨"/h/a", "t40", 3544000, 10240, false, true, true⟩,
       ⟨"/h/b", "t1", 6913600, 10240, false, true, true⟩] 30 0 7000000 = (2, 20480, [])) ∧
    (∀ (st : List TEntry) (r m now : Int), ∀ e ∈ (AutoCleanup st r m now).2.2,
        e.dataExists = true → ¬ e.DeletedAt < now - r * 86400) ∧
    (∀ (st : List TEntry) (r m now : Int),
        (listTrash st).2 - (phase1Loop (now - r * 86400) (listTrash st).1 st).2.1 ≤
          m * 1024 * 1024 →
        AutoCleanup st r m now = phase1Loop (now - r * 86400) (listTrash st).1 st) ∧
    (∀ l : List TEntry,
        List.Sorted (fun a b => a.DeletedAt ≤ b.DeletedAt) (bubbleSort deletedAfterSwap l)) := by
  refine ⟨by decide, ?_, ?_, ?_⟩
  · intro st r m now e he hd hlt
    simp only [AutoCleanup] at he
    by_cases hemp : ((listTrash st).1).isEmpty
    · rw [if_pos hemp] at he
      have : e ∈ (listTrash st).1 := by
        simp only [listTrash, List.mem_filter]
        exact ⟨he, hd⟩
      rw [List.isEmpty_iff.mp hemp] at this
      exact absurd this (List.not_mem_nil e)
    · rw [if_neg hemp] at he
      have hp1 := phase1Loop_no_expired (now - r * 86400) (listTrash st).1 st
        (by
          intro x hx hxd _
          simp only [listTrash, List.mem_filter]
          exact ⟨hx, hxd⟩)
      by_cases hcap :
          (listTrash st).2 - (phase1Loop (now - r * 86400) (listTrash st).1 st).2.1 >
            m * 1024 * 1024
      · rw [if_pos hcap] at he
        refine phase2Loop_pred (m * 1024 * 1024)
          (fun x => x.dataExists = true → ¬ x.DeletedAt < now - r * 86400)
          (fun y _ hyd => by simp at hyd) _ _ _ ?_ e he hd hlt
        intro x hx hxd
        exact hp1 x hx hxd
      · rw [if_neg hcap] at he
        exact hp1 e he hd hlt
  · intro st r m now hle
    simp only [AutoCleanup]
    by_cases hemp : ((listTrash st).1).isEmpty
    · rw [if_pos hemp, List.isEmpty_iff.mp hemp]
      rfl
    · rw [if_neg hemp, if_neg (by omega)]
  · intro l
    have h := bubbleSort_sorted deletedAfterSwap
      (fun a b hab => by
        simp only [deletedAfterSwap, decide_eq_true_eq] at hab
        simp only [deletedAfterSwap, decide_eq_false_iff_not]
        omega)
      (fun a b c hab hbc => by
        simp only [deletedAfterSwap, decide_eq_false_iff_not] at hab hbc ⊢
        omega) l
    refine h.imp ?_
    intro a b hab
    simp only [deletedAfterSwap, decide_eq_false_iff_not] at hab
    omega

/-- phase 1 only shrinks the record set (up to clearing the data flag). -/
theorem phase1Loop_pred (cutoff : Int) (P : TEntry → Prop)
    (hflip : ∀ y, P y → P { y with dataExists := false }) :
    ∀ (es st : List TEntry),
      (∀ x ∈ st, P x) → ∀ e ∈ (phase1Loop cutoff es st).2.2, P e
  | [], st, hall => by
    intro e he
    exact hall e he
  | e :: rest, st, hall => by
    simp only [phase1Loop]
    by_cases hexp : e.DeletedAt < cutoff
    · rw [if_pos hexp]
      refine phase1Loop_pred cutoff P hflip rest _ ?_
      intro x hx
      have hx2 := mem_removeMeta.mp hx
      have hxst : x ∈ (if e.removeOk then removeData st e.TrashPath else st) := hx2.1
      by_cases hok : e.removeOk
      · rw [if_pos hok] at hxst
        rcases mem_removeData hxst with hmem | ⟨y, hy, hxy⟩
        · exact hall x hmem
        · exact hxy ▸ hflip y (hall y hy)
      · rw [if_neg hok] at hxst
        exact hall x hxst
    · rw [if_neg hexp]
      exact phase1Loop_pred cutoff P hflip rest st hall

/-- Phase 1 removes the metadata record of every enumerated expired entry,
whether or not the data removal succeeds: its staged-path key never appears
in the resulting record set. -/
theorem phase1Loop_removes (cutoff : Int) (tp : String) :
    ∀ (es st : List TEntry),
      (∃ e ∈ es, e.TrashPath = tp ∧ e.DeletedAt < cutoff) →
      ∀ x ∈ (phase1Loop cutoff es st).2.2, x.TrashPath ≠ tp
  | [], _, hex => by
    obtain ⟨e₀, he₀, _⟩ := hex
    exact absurd he₀ (List.not_mem_nil e₀)
  | e :: rest, st, hex => by
    obtain ⟨e₀, he₀, htp, hexp₀⟩ := hex
    simp only [phase1Loop]
    by_cases hexp : e.DeletedAt < cutoff
    · rw [if_pos hexp]
      rcases List.mem_cons.mp he₀ with heq | hrest
      · subst heq
        refine phase1Loop_pred cutoff (fun x => x.TrashPath ≠ tp)
          (fun y hy => hy) rest _ ?_
        intro x hx
        have hx2 := mem_removeMeta.mp hx
        rw [htp] at hx2
        exact hx2.2
      · exact phase1Loop_removes cutoff tp rest _ ⟨e₀, hrest, htp, hexp₀⟩
    · rw [if_neg hexp]
      rcases List.mem_cons.mp he₀ with heq | hrest
      · subst heq
        exact absurd hexp₀ hexp
      · exact phase1Loop_removes cutoff tp rest st ⟨e₀, hrest, htp, hexp₀⟩

/-- C10: in phase 1 an expired listed entry loses its metadata record even
when removal of the staged data fails; afterwards nothing in the trash
index carries its staged-path key, so it appears in no subsequent List; and
a single expired entry whose data removal fails is excluded from the
itemsRemoved and bytesFreed tallies while still leaving the index empty. -/
theorem claim_C10 :
    (∀ (st : List TEntry) (r m now : Int) (e : TEntry),
        e ∈ st → e.dataExists = true → e.DeletedAt < now - r * 86400 →
        ∀ x ∈ (AutoCleanup st r m now).2.2, x.TrashPath ≠ e.TrashPath) ∧
    (∀ (e : TEntry) (r m now : Int),
        e.dataExists = true → e.removeOk = false → e.DeletedAt < now - r * 86400 →
        AutoCleanup [e] r m now = (0, 0, [])) := by
  constructor
  · intro st r m now e he hd hexp x hx
    simp only [AutoCleanup] at hx
    have hel : e ∈ (listTrash st).1 := by
      simp only [listTrash, List.mem_filter]
      exact ⟨he, hd⟩
    by_cases hemp : ((listTrash st).1).isEmpty
    · rw [List.isEmpty_iff.mp hemp] at hel
      exact absurd hel (List.not_mem_nil e)
    · rw [if_neg hemp] at hx
      have hp1 := phase1Loop_removes (now - r * 86400) e.TrashPath (listTrash st).1 st
        ⟨e, hel, rfl, hexp⟩
      by_cases hcap :
          (listTrash st).2 - (phase1Loop (now - r * 86400) (listTrash st).1 st).2.1 >
            m * 1024 * 1024
      · rw [if_pos hcap] at hx
        exact phase2Loop_pred (m * 1024 * 1024) (fun y => y.TrashPath ≠ e.TrashPath)
          (fun y hy => hy) _ _ _ hp1 x hx
      · rw [if_neg hcap] at hx
        exact hp1 x hx
  · intro e r m now hd hok hexp
    have hfil : List.filter (fun e => e.dataExists) [e] = [e] := by
      simp [List.filter_cons, hd]
    have hmeta : removeMeta [e] e.TrashPath = [] := by
      simp [removeMeta]
    have hp1 : phase1Loop (now - r * 86400) [e] [e] = (0, 0, []) := by
      simp only [phase1Loop, if_pos hexp, hok]
      simp [hmeta, phase1Loop]
    simp only [AutoCleanup, listTrash, hfil]
    simp only [List.isEmpty_cons, Bool.false_eq_true, if_false, hp1]
    by_cases hcap : (List.map (fun e => e.Size) [e]).sum - (0 : Int) > m * 1024 * 1024
    · rw [if_pos hcap]
      simp [listTrash, phase2Loop, bubbleSort, bubblePass_nil]
    · rw [if_neg hcap]

theorem claim_C3_witness :
    (⟨"/h/c", "t2", 6913600, 5, false, true, true⟩ : TEntry) ∈
      (AutoCleanup [⟨"/h/c", "t2", 6913600, 5, false, true, true⟩] 30 1000000 7000000).2.2 ∧
    ¬ ((6913600 : Int) < 7000000 - 30 * 86400) :=
  ⟨by decide,
   claim_C3.2.1 [⟨"/h/c", "t2", 6913600, 5, false, true, true⟩] 30 1000000 7000000
     ⟨"/h/c", "t2", 6913600, 5, false, true, true⟩ (by decide) rfl⟩

theorem claim_C10_witness :
    AutoCleanup [⟨"/h/d", "t9", 100, 7, false, true, false⟩] 30 0 7000000 = (0, 0, []) :=
  claim_C10.2 ⟨"/h/d", "t9", 100, 7, false, true, false⟩ 30 0 7000000 rfl rfl (by decide)

/-- Whether hay starts with needle. -/
def startsWithChars : List Char → List Char → Bool
  | [], _ => true
  | _ :: _, [] => false
  | a :: as, b :: bs => a = b && startsWithChars as bs

/-- Whether needle occurs contiguously in hay. -/
def containsChars (hay needle : List Char) : Bool :=
  startsWithChars needle hay ||
    (match hay with
     | [] => false
     | _ :: t => containsChars t needle)

/-- strings.Contains(s, sub) over runes; bytewise and rune containment
agree on the ASCII paths of this development. -/
def containsSubstr (s sub : String) : Bool :=
  containsChars s.toList sub.toList

/-- One metadata directory entry as Restore reads it, with the environment
facts of the restore attempt: whether the name carries the .json suffix,
whether the record reads and parses, the two recorded paths, whether the
staged data still exists, whether the original location is occupied, and
whether a rename respectively a copy back would succeed. -/
structure RRec where
  isJsonName : Bool
  parseOk : Bool
  OriginalPath : String
  TrashPath : String
  dataExists : Bool
  originalOccupied : Bool
  renameOk : Bool
  copyOk : Bool
deriving DecidableEq, Repr

/-- The match test of Restore: the base name of the recorded original path
equals the requested fragment, or the full original path contains it. -/
def restoreMatches (filename : String) (r : RRec) : Bool :=
  filepathBase r.OriginalPath = filename || containsSubstr r.OriginalPath filename

/-- A record Restore acts on: a json-named, readable, parsable record whose
original path matches. -/
def validMatch (filename : String) (r : RRec) : Bool :=
  r.isJsonName && r.parseOk && restoreMatches filename r

/-- The errors of Restore: no matching record, the staged data vanished, the
original location already occupied, or both rename and copy failing. -/
inductive RestoreErr where
  | notFound
  | stale
  | conflict
  | moveFailed
deriving DecidableEq, Repr

/-- trash.Manager.Restore: walk the metadata records in directory order,
skipping non-json names and unreadable or unparsable records, and act on
the first record whose original path matches: error out if the staged data
is missing (stale) or the original location is occupied (conflict);
otherwise create the parent directories (modelled on the non-failing path),
move the data back by rename, falling back to copy plus remove of the
staged data, and only after the successful move delete the metadata record.
Returns the error, if any, with the resulting metadata directory. -/
def Restore (filename : String) : List RRec → Option RestoreErr × List RRec
  | [] => (some RestoreErr.notFound, [])
  | r :: rest =>
    if validMatch filename r then
      if r.dataExists = false then (some RestoreErr.stale, r :: rest)
      else if r.originalOccupied then (some RestoreErr.conflict, r :: rest)
      else if r.renameOk || r.copyOk then (none, rest)
      else (some RestoreErr.moveFailed, r :: rest)
    else
      let res := Restore filename rest
      (res.1, r :: res.2)

/-- Skipped records pass through Restore unchanged. -/
theorem Restore_skip (filename : String) :
    ∀ (pre rest : List RRec), (∀ r ∈ pre, validMatch filename r = false) →
      Restore filename (pre ++ rest) =
        ((Restore filename rest).1, pre ++ (Restore filename rest).2)
  | [], rest, _ => by simp
  | p :: pre, rest, hpre => by
    have hp : validMatch filename p = false := hpre p (List.mem_cons_self p pre)
    simp only [List.cons_append, Restore, hp, Bool.false_eq_true, if_false, List.append_eq]
    rw [Restore_skip filename pre rest (fun r hr => hpre r (List.mem_cons_of_mem p hr))]

/-- C4: Restore selects the first metadata record whose original path
matches the fragment (base-name equality or substring containment, over the
records that carry a json name and parse); with no match it fails not-found
leaving the records unchanged; on a match it fails stale if the staged data
is missing, else conflict if the original location is occupied, each
leaving the records unchanged; with the move possible by rename or by the
copy fallback it succeeds and only then deletes exactly the matched record;
and when both rename and copy fail it errors with the records unchanged, so
the metadata record is deleted only after a successful move. -/
theorem claim_C4 :
    (∀ (filename : String) (recs : List RRec),
        (∀ r ∈ recs, validMatch filename r = false) →
        Restore filename recs = (some RestoreErr.notFound, recs)) ∧
    (∀ (filename : String) (pre : List RRec) (m : RRec) (post : List RRec),
        (∀ r ∈ pre, validMatch filename r = false) → validMatch filename m = true →
        m.dataExists = false →
        Restore filename (pre ++ m :: post) = (some RestoreErr.stale, pre ++ m :: post)) ∧
    (∀ (filename : String) (pre : List RRec) (m : RRec) (post : List RRec),
        (∀ r ∈ pre, validMatch filename r = false) → validMatch filename m = true →
        m.dataExists = true → m.originalOccupied = true →
        Restore filename (pre ++ m :: post) = (some RestoreErr.conflict, pre ++ m :: post)) ∧
    (∀ (filename : String) (pre : List RRec) (m : RRec) (post : List RRec),
        (∀ r ∈ pre, validMatch filename r = false) → validMatch filename m = true →
        m.dataExists = true → m.originalOccupied = false →
        (m.renameOk = true ∨ m.copyOk = true) →
        Restore filename (pre ++ m :: post) = (none, pre ++ post)) ∧
    (∀ (filename : String) (pre : List RRec) (m : RRec) (post : List RRec),
        (∀ r ∈ pre, validMatch filename r = false) → validMatch filename m = true →
        m.dataExists = true → m.originalOccupied = false →
        m.renameOk = false → m.copyOk = false →
        Restore filename (pre ++ m :: post) =
          (some RestoreErr.moveFailed, pre ++ m :: post)) := by
  have hnf : ∀ (filename : String) (recs : List RRec),
      (∀ r ∈ recs, validMatch filename r = false) →
      Restore filename recs = (some RestoreErr.notFound, recs) := by
    intro filename recs hall
    have h := Restore_skip filename recs [] hall
    rw [List.append_nil] at h
    rw [h]
    simp [Restore]
  refine ⟨hnf, ?_, ?_, ?_, ?_⟩
  · intro filename pre m post hpre hm hd
    rw [Restore_skip filename pre (m :: post) hpre]
    simp [Restore, hm, hd]
  · intro filename pre m post hpre hm hd hocc
    rw [Restore_skip filename pre (m :: post) hpre]
    simp [Restore, hm, hd, hocc]
  · intro filename pre m post hpre hm hd hocc hmv
    rw [Restore_skip filename pre (m :: post) hpre]
    rcases hmv with hr | hc
    · simp [Restore, hm, hd, hocc, hr]
    · simp [Restore, hm, hd, hocc, hc]
  · intro filename pre m post hpre hm hd hocc hr hc
    rw [Restore_skip filename pre (m :: post) hpre]
    simp [Restore, hm, hd, hocc, hr, hc]

theorem claim_C4_witness :
    Restore "gone"
      [⟨true, true, "/p/other", "t0", true, false, true, true⟩] =
        (some RestoreErr.notFound, [⟨true, true, "/p/other", "t0", true, false, true, true⟩]) ∧
    Restore "doc.txt"
      [⟨true, true, "/p/other", "t0", true, false, true, true⟩,
       ⟨true, true, "/p/doc.txt", "t1", true, false, true, true⟩] =
        (none, [⟨true, true, "/p/other", "t0", true, false, true, true⟩]) ∧
    Restore "doc.txt" [⟨true, true, "/p/doc.txt", "t1", false, false, true, true⟩] =
      (some RestoreErr.stale, [⟨true, true, "/p/doc.txt", "t1", false, false, true, true⟩]) :=
  ⟨claim_C4.1 "gone" [⟨true, true, "/p/other", "t0", true, false, true, true⟩] (by decide),
   claim_C4.2.2.2.1 "doc.txt" [⟨true, true, "/p/other", "t0", true, false, true, true⟩]
     ⟨true, true, "/p/doc.txt", "t1", true, false, true, true⟩ [] (by decide) (by decide)
     rfl rfl (Or.inl rfl),
   claim_C4.2.1 "doc.txt" [] ⟨true, true, "/p/doc.txt", "t1", false, false, true, true⟩ []
     (by decide) (by decide) rfl⟩

end Nuke
